import Mathlib

/-!
Shallow embedding of `src/pagerank.py` (repository nnayk/PageRank).

A Python `dict` is embedded as an association list in insertion order
(Python 3.7+ dicts iterate in insertion order, which matters for the
in-place update loop of `iterate_pagerank`).  Python floats are embedded
as exact rationals `ℚ`.  A Python function that can raise (KeyError,
IndexError, ZeroDivisionError) returns an `Option`.  The global random
source (`random.choice`, `random.choices`) is embedded as explicit
oracle parameters: the initial page `start` and a function `pick` that,
given the step index and the computed transition distribution, returns
the page drawn at that step; `random.choices` always returns a member of
its population list, which becomes a hypothesis on `pick` where needed.
-/

namespace PageRank

abbrev Page := String

/-- A corpus: Python `Dict[str, Set[str]]` in insertion order.  The link
set of a page is kept as a duplicate-free list. -/
abbrev Graph := List (Page × List Page)

/-- A rank table: Python `Dict[str, float]` / `defaultdict(lambda: 0)`
in insertion order, values as exact rationals. -/
abbrev RankMap := List (Page × ℚ)

/-- Embedding of `list(corpus.keys())`, in insertion order. -/
def keys (g : Graph) : List Page := g.map Prod.fst

/-- Lookup in a rank table with the `defaultdict(lambda: 0)` default:
the value of the first entry with the given key, or `0` when absent. -/
def dgetD (r : RankMap) (k : Page) : ℚ :=
  match r with
  | [] => 0
  | (k₀, v₀) :: rest => if k₀ = k then v₀ else dgetD rest k

/-- Embedding of `d[k] = v` on a Python dict: overwrite the entry in place when the
key is present, append a fresh entry otherwise. -/
def setEntry (r : RankMap) (k : Page) (v : ℚ) : RankMap :=
  match r with
  | [] => [(k, v)]
  | (k₀, v₀) :: rest => if k₀ = k then (k, v) :: rest else (k₀, v₀) :: setEntry rest k v

/-- Embedding of `corpus[page]`: the link list of the first
entry keyed `page`, or `none` for a Python `KeyError`. -/
def getLinks (g : Graph) (p : Page) : Option (List Page) :=
  match g with
  | [] => none
  | (k₀, l₀) :: rest => if k₀ = p then some l₀ else getLinks rest p

/--
Embedding of `transition_model(corpus, page, damping_factor)` from `src/pagerank.py`
lines 49–87.  `corpus[page]` raises `KeyError` when `page` is not a key
(`none` here); otherwise the function builds, for every corpus page
`pg` in insertion order, the value
`random_probability + (outgoing_probability if pg in corpus[page] else 0)`
where `random_probability = 1/len(corpus)`, multiplied by
`1 - damping_factor` when the page has outgoing links, and
`outgoing_probability = damping_factor * (1/num_outgoing)` when
`num_outgoing > 0`, else `0`.
-/
def transition_model (corpus : Graph) (page : Page) (damping_factor : ℚ) :
    Option (List (Page × ℚ)) :=
  match getLinks corpus page with
  | none => none
  | some links =>
      let random_factor := 1 - damping_factor
      let num_outgoing := links.length
      let random_probability : ℚ :=
        if num_outgoing > 0 then (1 / (corpus.length : ℚ)) * random_factor
        else 1 / (corpus.length : ℚ)
      let outgoing_probability : ℚ :=
        if num_outgoing > 0 then damping_factor * (1 / (num_outgoing : ℚ)) else 0
      some (corpus.map (fun e =>
        (e.1, random_probability + if e.1 ∈ links then outgoing_probability else 0)))

/--
The sampling loop of `sample_pagerank` (`src/pagerank.py` lines 104–109):
`m` remaining samples, current page `curr_pg`, visit counters `pg_ranks`
(a `defaultdict(lambda: 0)`).  Each step computes the transition model
of the current page (propagating its `KeyError` as `none`), lets the
oracle `pick` draw the next page from that distribution, and increments
the drawn page's counter (`pg_ranks[curr_pg] = pg_ranks[curr_pg] + 1`,
which on a defaultdict inserts the key with value 0 first when absent).
-/
def sampleLoop (corpus : Graph) (damping_factor : ℚ)
    (pick : Nat → List (Page × ℚ) → Page) :
    Nat → Page → RankMap → Option RankMap
  | 0, _, pg_ranks => some pg_ranks
  | m + 1, curr_pg, pg_ranks =>
      match transition_model corpus curr_pg damping_factor with
      | none => none
      | some distribution =>
          let nxt := pick (m + 1) distribution
          sampleLoop corpus damping_factor pick m nxt
            (setEntry pg_ranks nxt (dgetD pg_ranks nxt + 1))

/--
Embedding of `sample_pagerank(corpus, damping_factor, n)` from `src/pagerank.py`
lines 90–113.  `random.choice(list(corpus.keys()))` raises `IndexError`
on an empty corpus (`none` here); otherwise it is modelled by the
oracle-supplied `start` page.  After the `n` sampling steps, every
stored counter is divided by `n`
(`for pg in pg_ranks: pg_ranks[pg] /= n`).  The returned value is the
defaultdict's entry list in insertion order; lookups on it use `dgetD`,
whose missing-key default is 0.
-/
def sample_pagerank (corpus : Graph) (damping_factor : ℚ) (n : Nat)
    (start : Page) (pick : Nat → List (Page × ℚ) → Page) :
    Option RankMap :=
  if corpus.isEmpty then none
  else
    match sampleLoop corpus damping_factor pick n start [] with
    | none => none
    | some pg_ranks => some (pg_ranks.map (fun e => (e.1, e.2 / (n : ℚ))))

/-- The pick sequence of a sampling run: the successive pages drawn by
the oracle, in order, mirroring `sampleLoop` step by step. -/
def sampleDraws (corpus : Graph) (damping_factor : ℚ)
    (pick : Nat → List (Page × ℚ) → Page) :
    Nat → Page → List Page
  | 0, _ => []
  | m + 1, curr_pg =>
      match transition_model corpus curr_pg damping_factor with
      | none => []
      | some distribution =>
          pick (m + 1) distribution ::
            sampleDraws corpus damping_factor pick m (pick (m + 1) distribution)

/-- Embedding of `outgoing_counts[pg] = len(corpus[pg])` (`src/pagerank.py`
lines 131–133); 0 for a key not in the corpus (never queried there). -/
def outgoingCounts (corpus : Graph) (p : Page) : Nat :=
  ((getLinks corpus p).getD []).length

/-- Embedding of `source_links[pg]`: the set of corpus pages that link to `pg`
(`src/pagerank.py` lines 135–138), as the duplicate-free list of sources
in corpus order (the Python value is a set; it is only ever summed over,
so any enumeration order denotes the same rational sum). -/
def sourceLinks (corpus : Graph) (p : Page) : List Page :=
  (corpus.filter (fun e => p ∈ e.2)).map Prod.fst

/-- Embedding of the `raw_source_sum` accumulation (`src/pagerank.py` lines 144–146):
starting from 0, add `pg_ranks[source] / outgoing_counts[source]` for
each source. -/
def rawSourceSum (corpus : Graph) (pg_ranks : RankMap) (sources : List Page) : ℚ :=
  sources.foldl (fun acc s => acc + dgetD pg_ranks s / (outgoingCounts corpus s : ℚ)) 0

/--
The body of `for pg in corpus` inside the while-loop of
`iterate_pagerank` (`src/pagerank.py` lines 141–150), acting on the
state (rank table, `done` flag): read `curr_rank = pg_ranks[pg]`,
compute
`new_rank = random_probability + damping_factor * raw_source_sum`,
clear `done` when `abs(new_rank - curr_rank) > 0.001`, and write
`pg_ranks[pg] = new_rank` in place.
-/
def passStep (corpus : Graph) (damping_factor : ℚ)
    (st : RankMap × Bool) (pg : Page) : RankMap × Bool :=
  let curr_rank := dgetD st.1 pg
  let new_rank := (1 - damping_factor) / (corpus.length : ℚ) +
    damping_factor * rawSourceSum corpus st.1 (sourceLinks corpus pg)
  (setEntry st.1 pg new_rank,
   if |new_rank - curr_rank| > 1 / 1000 then false else st.2)

/-- One full iteration of the while-loop of `iterate_pagerank`
(`src/pagerank.py` lines 140–150): `done = True`, then the in-place
update of every corpus page in insertion order.  Returns the updated
rank table and the final `done` flag. -/
def iteratePass (corpus : Graph) (damping_factor : ℚ) (pg_ranks : RankMap) :
    RankMap × Bool :=
  (keys corpus).foldl (passStep corpus damping_factor) (pg_ranks, true)

/-- The `while not done` loop of `iterate_pagerank` (`src/pagerank.py`
lines 139–150), with explicit fuel: `none` means the loop has not
terminated within `fuel` iterations. -/
def iterateLoop (corpus : Graph) (damping_factor : ℚ) :
    Nat → RankMap → Option RankMap
  | 0, _ => none
  | fuel + 1, pg_ranks =>
      let st := iteratePass corpus damping_factor pg_ranks
      if st.2 then some st.1 else iterateLoop corpus damping_factor fuel st.1

/-- The initial rank table of `iterate_pagerank`
(`src/pagerank.py` line 127): every corpus page mapped to `1/N`. -/
def initRanks (corpus : Graph) : RankMap :=
  (keys corpus).map (fun k => (k, 1 / (corpus.length : ℚ)))

/--
Embedding of `iterate_pagerank(corpus, damping_factor)` from `src/pagerank.py`
lines 116–151.  On an empty corpus the line
`random_probability = random_factor / num_pgs` raises
`ZeroDivisionError`, embedded as the outer `none`.  Otherwise the
result is the while-loop run from the uniform initial table; the inner
`Option` is the fuel bound of the embedding (`some none` = the loop has
not yet converged after `fuel` iterations, a state in which the Python
code is still running).
-/
def iterate_pagerank (corpus : Graph) (damping_factor : ℚ) (fuel : Nat) :
    Option (Option RankMap) :=
  if corpus.isEmpty then none
  else some (iterateLoop corpus damping_factor fuel (initRanks corpus))

/-- Modelled from the spec (§4.3 update rule): the synchronous /
Jacobi-style iteration the spec describes, in which every page's new
rank `(1 − damping)/N + damping * Σ rank(s)/outdegree(s)` reads every
`rank(s)` from the complete previous-iteration snapshot.  Used only to
compare the spec's update rule with the code's in-place update. -/
def jacobiPass (corpus : Graph) (damping_factor : ℚ) (pg_ranks : RankMap) :
    RankMap :=
  (keys corpus).map (fun pg =>
    (pg, (1 - damping_factor) / (corpus.length : ℚ) +
      damping_factor * rawSourceSum corpus pg_ranks (sourceLinks corpus pg)))

/-! ### Basic lemmas about the dict embedding -/

theorem dgetD_setEntry (r : RankMap) (k : Page) (v : ℚ) (a : Page) :
    dgetD (setEntry r k v) a = if k = a then v else dgetD r a := by
  induction r with
  | nil => by_cases h : k = a <;> simp [setEntry, dgetD, h]
  | cons e rest ih =>
      obtain ⟨k₀, v₀⟩ := e
      by_cases h : k₀ = k
      · subst h
        by_cases h' : k₀ = a <;> simp [setEntry, dgetD, h']
      · by_cases h' : k₀ = a
        · subst h'
          have hka : ¬k = k₀ := fun hh => h hh.symm
          simp [setEntry, dgetD, h, hka]
        · simp [setEntry, dgetD, h, h', ih]

theorem mem_keys_setEntry (r : RankMap) (k : Page) (v : ℚ) (a : Page) :
    a ∈ (setEntry r k v).map Prod.fst ↔ a = k ∨ a ∈ r.map Prod.fst := by
  induction r with
  | nil => simp [setEntry]
  | cons e rest ih =>
      obtain ⟨k₀, v₀⟩ := e
      by_cases h : k₀ = k
      · subst h
        simp [setEntry]
      · simp only [setEntry, if_neg h, List.map_cons, List.mem_cons, ih]
        tauto

theorem sum_setEntry (r : RankMap) (k : Page) (v : ℚ) :
    ((setEntry r k v).map Prod.snd).sum = (r.map Prod.snd).sum - dgetD r k + v := by
  induction r with
  | nil => simp [setEntry, dgetD]
  | cons e rest ih =>
      obtain ⟨k₀, v₀⟩ := e
      by_cases h : k₀ = k
      · subst h
        simp [setEntry, dgetD]
        ring
      · simp only [setEntry, if_neg h, dgetD, List.map_cons, List.sum_cons, ih]
        ring

theorem mem_values_setEntry (r : RankMap) (k : Page) (v : ℚ) :
    ∀ w ∈ (setEntry r k v).map Prod.snd, w = v ∨ w ∈ r.map Prod.snd := by
  induction r with
  | nil =>
      intro w hw
      simp [setEntry] at hw
      exact Or.inl hw
  | cons e rest ih =>
      obtain ⟨k₀, v₀⟩ := e
      intro w hw
      by_cases h : k₀ = k
      · subst h
        simp [setEntry] at hw ⊢
        tauto
      · simp only [setEntry, if_neg h, List.map_cons, List.mem_cons] at hw ⊢
        rcases hw with hw | hw
        · tauto
        · rcases ih w hw with hw' | hw' <;> tauto

theorem dgetD_eq_zero_of_not_mem {r : RankMap} {k : Page}
    (h : k ∉ r.map Prod.fst) : dgetD r k = 0 := by
  induction r with
  | nil => rfl
  | cons e rest ih =>
      obtain ⟨k₀, v₀⟩ := e
      simp only [List.map_cons, List.mem_cons] at h
      push_neg at h
      have hk : ¬k₀ = k := fun hh => h.1 hh.symm
      simp [dgetD, hk, ih h.2]

theorem dgetD_mem_or_zero (r : RankMap) (k : Page) :
    dgetD r k ∈ r.map Prod.snd ∨ dgetD r k = 0 := by
  induction r with
  | nil => simp [dgetD]
  | cons e rest ih =>
      obtain ⟨k₀, v₀⟩ := e
      by_cases h : k₀ = k
      · simp [dgetD, h]
      · simp only [dgetD, if_neg h, List.map_cons, List.mem_cons]
        tauto

theorem getLinks_eq_none_iff (g : Graph) (p : Page) :
    getLinks g p = none ↔ p ∉ keys g := by
  induction g with
  | nil => simp [getLinks, keys]
  | cons e rest ih =>
      obtain ⟨k₀, l₀⟩ := e
      by_cases h : k₀ = p
      · subst h
        simp [getLinks, keys]
      · have hp : ¬p = k₀ := fun hh => h hh.symm
        simp [getLinks, h, keys, ih, hp]

theorem getLinks_isSome_of_mem {g : Graph} {p : Page} (hp : p ∈ keys g) :
    ∃ l, getLinks g p = some l := by
  cases hl : getLinks g p with
  | none => exact absurd hp ((getLinks_eq_none_iff g p).mp hl)
  | some l => exact ⟨l, rfl⟩

/-- The value of a key-dependent map over the corpus at a corpus key. -/
theorem dgetD_map_key (l : Graph) (f : Page → ℚ) (q : Page) :
    dgetD (l.map (fun e => (e.1, f e.1))) q = if q ∈ keys l then f q else 0 := by
  induction l with
  | nil => simp [dgetD, keys]
  | cons e rest ih =>
      obtain ⟨k₀, l₀⟩ := e
      by_cases h : k₀ = q
      · subst h
        simp [dgetD, keys]
      · have hq : ¬q = k₀ := fun hh => h hh.symm
        simp [dgetD, h, keys, ih]
        by_cases hm : q ∈ List.map Prod.fst rest <;> simp [hm, hq]

/-! ### Lemmas about `transition_model` -/

theorem transition_model_eq_none_iff (g : Graph) (p : Page) (d : ℚ) :
    transition_model g p d = none ↔ p ∉ keys g := by
  rw [← getLinks_eq_none_iff]
  unfold transition_model
  cases hl : getLinks g p with
  | none => simp
  | some links => simp

theorem keys_transition_model {g : Graph} {p : Page} {d : ℚ}
    {dist : List (Page × ℚ)} (h : transition_model g p d = some dist) :
    dist.map Prod.fst = keys g := by
  unfold transition_model at h
  cases hl : getLinks g p with
  | none => rw [hl] at h; cases h
  | some links =>
      rw [hl] at h
      simp only [Option.some.injEq] at h
      subst h
      simp [keys, List.map_map, Function.comp]

/-- The per-page value built by `transition_model` for link list `links`:
the base `random_probability` plus `outgoing_probability` for linked
pages. -/
def tmValue (g : Graph) (links : List Page) (d : ℚ) (a : Page) : ℚ :=
  (if 0 < links.length then 1 / (g.length : ℚ) * (1 - d) else 1 / (g.length : ℚ)) +
    if a ∈ links then (if 0 < links.length then d * (1 / (links.length : ℚ)) else 0) else 0

theorem transition_model_eq_some (g : Graph) (p : Page) (d : ℚ) (links : List Page)
    (hl : getLinks g p = some links) :
    transition_model g p d = some (g.map (fun e => (e.1, tmValue g links d e.1))) := by
  unfold transition_model
  rw [hl]
  rfl

theorem sum_map_const_add_ite (K : List Page) (links : List Page) (c x : ℚ) :
    (K.map (fun a => c + if a ∈ links then x else 0)).sum =
      (K.length : ℚ) * c + (K.countP (fun a => decide (a ∈ links)) : ℚ) * x := by
  induction K with
  | nil => simp
  | cons a rest ih =>
      by_cases h : a ∈ links <;>
        simp [h, ih, List.countP_cons] <;> push_cast <;> ring

theorem countP_mem_eq_length {K links : List Page} (hK : K.Nodup)
    (hL : links.Nodup) (hsub : ∀ a ∈ links, a ∈ K) :
    K.countP (fun a => decide (a ∈ links)) = links.length := by
  rw [List.countP_eq_length_filter]
  have hnd : (K.filter (fun a => decide (a ∈ links))).Nodup := hK.filter _
  have hfin : (K.filter (fun a => decide (a ∈ links))).toFinset = links.toFinset := by
    ext a
    simp only [List.mem_toFinset, List.mem_filter, decide_eq_true_eq]
    exact ⟨fun h => h.2, fun h => ⟨hsub a h, h⟩⟩
  have h1 := List.toFinset_card_of_nodup hnd
  have h2 := List.toFinset_card_of_nodup hL
  rw [← h1, hfin, h2]

/--
Claim C4: For every graph, page with at least one outgoing link
(`k = |graph[page]| > 0`) and damping in `[0,1]`, `transition_model`
assigns `(1 - damping)/N + damping/k` to each page linked from `page`
and `(1 - damping)/N` to each corpus page not linked from `page`,
where `N` is the number of corpus pages.
-/
theorem C4_link_split (corpus : Graph) (page : Page) (damping : ℚ)
    (links : List Page) (hl : getLinks corpus page = some links)
    (hk : 0 < links.length) (hd0 : 0 ≤ damping) (hd1 : damping ≤ 1)
    (q : Page) (hq : q ∈ keys corpus) :
    (transition_model corpus page damping).isSome = true ∧
    dgetD ((transition_model corpus page damping).getD []) q =
      (if q ∈ links
        then (1 - damping) / (corpus.length : ℚ) + damping / (links.length : ℚ)
        else (1 - damping) / (corpus.length : ℚ)) := by
  rw [transition_model_eq_some corpus page damping links hl]
  refine ⟨rfl, ?_⟩
  rw [Option.getD_some, dgetD_map_key corpus (tmValue corpus links damping) q, if_pos hq]
  unfold tmValue
  rw [if_pos hk]
  by_cases h : q ∈ links
  · rw [if_pos h, if_pos h, if_pos hk]
    ring
  · rw [if_neg h, if_neg h]
    ring

/-- Witness for C4 on the corpus of the repository's own unit test. -/
theorem C4_link_split_witness :
    (getLinks [("1", ["2", "3"]), ("2", ["3"]), ("3", ["2"])] "1" = some ["2", "3"] ∧
      0 < (["2", "3"] : List Page).length ∧ (0 : ℚ) ≤ 17 / 20 ∧ (17 : ℚ) / 20 ≤ 1 ∧
      "2" ∈ keys [("1", ["2", "3"]), ("2", ["3"]), ("3", ["2"])]) ∧
    ((transition_model [("1", ["2", "3"]), ("2", ["3"]), ("3", ["2"])] "1" (17 / 20)).isSome = true ∧
      dgetD ((transition_model [("1", ["2", "3"]), ("2", ["3"]), ("3", ["2"])] "1" (17 / 20)).getD []) "2" =
        (if "2" ∈ (["2", "3"] : List Page)
          then (1 - 17 / 20) / ((3 : Nat) : ℚ) + (17 / 20) / ((2 : Nat) : ℚ)
          else (1 - 17 / 20) / ((3 : Nat) : ℚ))) :=
  ⟨⟨by norm_num [getLinks, keys], by norm_num, by norm_num, by norm_num, by
      norm_num [keys]⟩,
    C4_link_split [("1", ["2", "3"]), ("2", ["3"]), ("3", ["2"])] "1" (17 / 20)
      ["2", "3"] (by norm_num [getLinks]) (by norm_num) (by norm_num) (by norm_num)
      "2" (by norm_num [keys])⟩

/--
Claim C5: For every graph and page whose outgoing-link set `graph[page]`
is empty, and every damping in `[0,1]`, `transition_model` assigns
exactly `1/N` to every corpus page, and the damping value has no effect
on the result (the result equals the one computed with damping 0).
-/
theorem C5_dead_end_uniform (corpus : Graph) (page : Page) (damping : ℚ)
    (hl : getLinks corpus page = some []) (hd0 : 0 ≤ damping) (hd1 : damping ≤ 1)
    (q : Page) (hq : q ∈ keys corpus) :
    (transition_model corpus page damping).isSome = true ∧
    dgetD ((transition_model corpus page damping).getD []) q = 1 / (corpus.length : ℚ) ∧
    transition_model corpus page damping = transition_model corpus page 0 := by
  rw [transition_model_eq_some corpus page damping [] hl,
    transition_model_eq_some corpus page 0 [] hl]
  refine ⟨rfl, ?_, ?_⟩
  · rw [Option.getD_some, dgetD_map_key corpus (tmValue corpus [] damping) q, if_pos hq]
    simp [tmValue]
  · simp [tmValue]

/-- Witness for C5 at a two-page corpus with the dead-end page "a". -/
theorem C5_dead_end_uniform_witness :
    (getLinks [("a", []), ("b", ["a"])] "a" = some [] ∧ (0 : ℚ) ≤ 17 / 20 ∧
      (17 : ℚ) / 20 ≤ 1 ∧ "b" ∈ keys [("a", []), ("b", ["a"])]) ∧
    ((transition_model [("a", []), ("b", ["a"])] "a" (17 / 20)).isSome = true ∧
      dgetD ((transition_model [("a", []), ("b", ["a"])] "a" (17 / 20)).getD []) "b" =
        1 / (((2 : Nat) : ℚ)) ∧
      transition_model [("a", []), ("b", ["a"])] "a" (17 / 20) =
        transition_model [("a", []), ("b", ["a"])] "a" 0) :=
  ⟨⟨by norm_num [getLinks], by norm_num, by norm_num, by norm_num [keys]⟩,
    C5_dead_end_uniform [("a", []), ("b", ["a"])] "a" (17 / 20)
      (by norm_num [getLinks]) (by norm_num) (by norm_num) "b" (by norm_num [keys])⟩

/--
Claim C6: For every non-empty graph (valid in the §3 sense: no duplicate
keys, duplicate-free link sets, no dangling links), every page that is a
key of the graph, and every damping in `[0,1]`, the mapping returned by
`transition_model` has exactly one entry per corpus page — exactly `N`
entries, keys equal to the graph's key list — and its values sum to 1
exactly, over exact rational arithmetic.
-/
theorem C6_distribution_totals_one (corpus : Graph) (page : Page) (damping : ℚ)
    (links : List Page) (hl : getLinks corpus page = some links)
    (hkeys : (keys corpus).Nodup) (hlinks : links.Nodup)
    (hsub : ∀ a ∈ links, a ∈ keys corpus)
    (hd0 : 0 ≤ damping) (hd1 : damping ≤ 1) :
    (transition_model corpus page damping).isSome = true ∧
    ((transition_model corpus page damping).getD []).map Prod.fst = keys corpus ∧
    ((transition_model corpus page damping).getD []).length = corpus.length ∧
    ((((transition_model corpus page damping).getD []).map Prod.snd).sum = 1) := by
  have hne : corpus ≠ [] := by
    intro h
    rw [h] at hl
    cases hl
  have hN : ((corpus.length : ℚ)) ≠ 0 := by
    have : 0 < corpus.length := List.length_pos.mpr hne
    exact_mod_cast Nat.pos_iff_ne_zero.mp this
  rw [transition_model_eq_some corpus page damping links hl]
  refine ⟨rfl, ?_, ?_, ?_⟩
  · rw [Option.getD_some]
    simp [keys, List.map_map, Function.comp]
  · rw [Option.getD_some]
    simp
  · rw [Option.getD_some]
    have hmap : (List.map (fun e => (e.1, tmValue corpus links damping e.1)) corpus).map
        Prod.snd = (keys corpus).map (tmValue corpus links damping) := by
      simp [keys, List.map_map, Function.comp]
    rw [hmap]
    have hcount : (keys corpus).countP (fun a => decide (a ∈ links)) = links.length :=
      countP_mem_eq_length hkeys hlinks hsub
    have hlen : (keys corpus).length = corpus.length := by simp [keys]
    by_cases hk : 0 < links.length
    · have hKQ : ((links.length : ℚ)) ≠ 0 := by
        exact_mod_cast Nat.pos_iff_ne_zero.mp hk
      have : (keys corpus).map (tmValue corpus links damping) =
          (keys corpus).map (fun a => 1 / (corpus.length : ℚ) * (1 - damping) +
            if a ∈ links then damping * (1 / (links.length : ℚ)) else 0) := by
        apply List.map_congr_left
        intro a _
        unfold tmValue
        rw [if_pos hk]
        by_cases h : a ∈ links
        · rw [if_pos h, if_pos h, if_pos hk]
        · rw [if_neg h, if_neg h]
      rw [this, sum_map_const_add_ite, hcount, hlen]
      field_simp
    · have hk0 : links.length = 0 := Nat.eq_zero_of_not_pos hk
      have hnil : links = [] := List.length_eq_zero.mp hk0
      subst hnil
      have : (keys corpus).map (tmValue corpus [] damping) =
          (keys corpus).map (fun a => 1 / (corpus.length : ℚ) + if a ∈ ([] : List Page) then 0 else 0) := by
        apply List.map_congr_left
        intro a _
        simp [tmValue]
      rw [this, sum_map_const_add_ite, hlen]
      field_simp

/-- Witness for C6 on the corpus of the repository's own unit test. -/
theorem C6_distribution_totals_one_witness :
    (getLinks [("1", ["2", "3"]), ("2", ["3"]), ("3", ["2"])] "1" = some ["2", "3"] ∧
      (keys [("1", ["2", "3"]), ("2", ["3"]), ("3", ["2"])]).Nodup ∧
      (["2", "3"] : List Page).Nodup ∧
      (∀ a ∈ (["2", "3"] : List Page), a ∈ keys [("1", ["2", "3"]), ("2", ["3"]), ("3", ["2"])]) ∧
      (0 : ℚ) ≤ 17 / 20 ∧ (17 : ℚ) / 20 ≤ 1) ∧
    ((transition_model [("1", ["2", "3"]), ("2", ["3"]), ("3", ["2"])] "1" (17 / 20)).isSome = true ∧
      ((transition_model [("1", ["2", "3"]), ("2", ["3"]), ("3", ["2"])] "1" (17 / 20)).getD []).map
          Prod.fst = keys [("1", ["2", "3"]), ("2", ["3"]), ("3", ["2"])] ∧
      ((transition_model [("1", ["2", "3"]), ("2", ["3"]), ("3", ["2"])] "1" (17 / 20)).getD
          []).length = (3 : Nat) ∧
      ((((transition_model [("1", ["2", "3"]), ("2", ["3"]), ("3", ["2"])] "1" (17 / 20)).getD
          []).map Prod.snd).sum = 1)) :=
  ⟨⟨by norm_num [getLinks], by simp [keys], by simp, by simp [keys], by norm_num, by norm_num⟩,
    C6_distribution_totals_one [("1", ["2", "3"]), ("2", ["3"]), ("3", ["2"])] "1" (17 / 20)
      ["2", "3"] (by norm_num [getLinks]) (by simp [keys]) (by simp) (by simp [keys])
      (by norm_num) (by norm_num)⟩

/-! ### Lemmas about the iterate loop -/

theorem dgetD_foldl_passStep_of_not_mem (c : Graph) (d : ℚ) (l : List Page)
    (st : RankMap × Bool) (p : Page) (hp : p ∉ l) :
    dgetD (l.foldl (passStep c d) st).1 p = dgetD st.1 p := by
  induction l generalizing st with
  | nil => rfl
  | cons q rest ih =>
      have hqp : ¬q = p := fun h => hp (h ▸ List.mem_cons_self q rest)
      have hprest : p ∉ rest := fun h => hp (List.mem_cons_of_mem q h)
      rw [List.foldl_cons, ih _ hprest]
      show dgetD (setEntry st.1 q _) p = dgetD st.1 p
      rw [dgetD_setEntry, if_neg hqp]

/--
Claim C1 counterexample: On the corpus of the repository's own unit test
with damping 0.85 and the uniform initial ranks 1/3, the first
iteration of `iterate_pagerank` gives page "2" the rank 851/2400
(because the already-updated rank 1/20 of page "1" is read in the same
pass), while the spec's synchronous update rule
`(1 − damping)/N + damping * Σ rank(s)/outdegree(s)` over the previous
complete snapshot gives 19/40.
-/
theorem C1_counterexample :
    dgetD (iteratePass [("1", ["2", "3"]), ("2", ["3"]), ("3", ["2"])] (17 / 20)
        (initRanks [("1", ["2", "3"]), ("2", ["3"]), ("3", ["2"])])).1 "2" = 851 / 2400 ∧
    dgetD (jacobiPass [("1", ["2", "3"]), ("2", ["3"]), ("3", ["2"])] (17 / 20)
        (initRanks [("1", ["2", "3"]), ("2", ["3"]), ("3", ["2"])])) "2" = 19 / 40 ∧
    (851 / 2400 : ℚ) ≠ 19 / 40 := by
  refine ⟨?_, ?_, by norm_num⟩
  · norm_num +decide [iteratePass, passStep, keys, dgetD, setEntry, rawSourceSum,
      sourceLinks, outgoingCounts, getLinks, initRanks, List.foldl, List.filter]
  · norm_num +decide [jacobiPass, keys, dgetD, rawSourceSum, sourceLinks,
      outgoingCounts, getLinks, initRanks, List.foldl, List.filter]

/--
Claim C1 as amended: Each iteration of `iterate_pagerank` updates the
pages in corpus insertion order, in place: the new rank of the `i`-th
page `p` is `(1 − damping)/N + damping * Σ_{s ∈ incoming(p)}
rank(s)/outdegree(s)`, where each `rank(s)` is read from the rank table
as it stands after the first `i` pages of the same pass have already
been updated (a Gauss–Seidel update), not from the previous iteration's
complete snapshot.
-/
theorem C1_in_place_update (corpus : Graph) (damping : ℚ) (r : RankMap)
    (hnodup : (keys corpus).Nodup) (i : Nat) (hi : i < (keys corpus).length) :
    dgetD (iteratePass corpus damping r).1 ((keys corpus).get ⟨i, hi⟩) =
      (1 - damping) / (corpus.length : ℚ) +
        damping * rawSourceSum corpus
          (((keys corpus).take i).foldl (passStep corpus damping) (r, true)).1
          (sourceLinks corpus ((keys corpus).get ⟨i, hi⟩)) := by
  have htake : (keys corpus).take (i + 1) =
      (keys corpus).take i ++ [(keys corpus).get ⟨i, hi⟩] := by
    rw [List.take_succ, List.getElem?_eq_getElem hi]
    rfl
  have hmemtake : (keys corpus).get ⟨i, hi⟩ ∈ (keys corpus).take (i + 1) := by
    rw [htake]
    exact List.mem_append_right _ (List.mem_singleton.mpr rfl)
  have hnd2 : ((keys corpus).take (i + 1) ++ (keys corpus).drop (i + 1)).Nodup := by
    rw [List.take_append_drop]
    exact hnodup
  have hdrop : (keys corpus).get ⟨i, hi⟩ ∉ (keys corpus).drop (i + 1) :=
    fun hp => (List.nodup_append.mp hnd2).2.2 hmemtake hp
  have hsplit : iteratePass corpus damping r =
      ((keys corpus).drop (i + 1)).foldl (passStep corpus damping)
        (((keys corpus).take (i + 1)).foldl (passStep corpus damping) (r, true)) := by
    unfold iteratePass
    rw [← List.foldl_append, List.take_append_drop]
  rw [hsplit, dgetD_foldl_passStep_of_not_mem _ _ _ _ _ hdrop, htake,
    List.foldl_append]
  rw [List.foldl_cons, List.foldl_nil]
  show dgetD (setEntry _ _ _) _ = _
  rw [dgetD_setEntry, if_pos rfl]

/-- Witness for C1-as-amended: page index 1 (page "2") of the unit-test
corpus, starting from the uniform initial table. -/
theorem C1_in_place_update_witness :
    ((keys [("1", ["2", "3"]), ("2", ["3"]), ("3", ["2"])]).Nodup ∧
      1 < (keys [("1", ["2", "3"]), ("2", ["3"]), ("3", ["2"])]).length) ∧
    dgetD (iteratePass [("1", ["2", "3"]), ("2", ["3"]), ("3", ["2"])] (17 / 20)
        (initRanks [("1", ["2", "3"]), ("2", ["3"]), ("3", ["2"])])).1
        ((keys [("1", ["2", "3"]), ("2", ["3"]), ("3", ["2"])]).get ⟨1, by simp [keys]⟩) =
      (1 - 17 / 20) / (((3 : Nat)) : ℚ) +
        (17 / 20) * rawSourceSum [("1", ["2", "3"]), ("2", ["3"]), ("3", ["2"])]
          (((keys [("1", ["2", "3"]), ("2", ["3"]), ("3", ["2"])]).take 1).foldl
            (passStep [("1", ["2", "3"]), ("2", ["3"]), ("3", ["2"])] (17 / 20))
            (initRanks [("1", ["2", "3"]), ("2", ["3"]), ("3", ["2"])], true)).1
          (sourceLinks [("1", ["2", "3"]), ("2", ["3"]), ("3", ["2"])]
            ((keys [("1", ["2", "3"]), ("2", ["3"]), ("3", ["2"])]).get ⟨1, by simp [keys]⟩)) :=
  ⟨⟨by simp [keys], by simp [keys]⟩,
    C1_in_place_update [("1", ["2", "3"]), ("2", ["3"]), ("3", ["2"])] (17 / 20)
      (initRanks [("1", ["2", "3"]), ("2", ["3"]), ("3", ["2"])])
      (by simp [keys]) 1 (by simp [keys])⟩

theorem foldl_passStep_done_iff (c : Graph) (d : ℚ) (l : List Page) (hl : l.Nodup)
    (r : RankMap) (b : Bool) :
    ((l.foldl (passStep c d) (r, b)).2 = true ↔
      (b = true ∧
        ∀ p ∈ l, |dgetD (l.foldl (passStep c d) (r, b)).1 p - dgetD r p| ≤ 1 / 1000)) := by
  induction l generalizing r b with
  | nil => simp
  | cons q rest ih =>
      have hq : q ∉ rest := (List.nodup_cons.mp hl).1
      have hrest : rest.Nodup := (List.nodup_cons.mp hl).2
      rw [List.foldl_cons]
      set v := (1 - d) / (c.length : ℚ) + d * rawSourceSum c r (sourceLinks c q) with hv
      set b₁ := (if |v - dgetD r q| > 1 / 1000 then false else b) with hb₁def
      have hstep : passStep c d (r, b) q = (setEntry r q v, b₁) := rfl
      rw [hstep, ih hrest]
      have hfq : dgetD ((rest.foldl (passStep c d) (setEntry r q v, b₁)).1) q = v := by
        rw [dgetD_foldl_passStep_of_not_mem c d rest _ q hq, dgetD_setEntry, if_pos rfl]
      have hfp : ∀ p ∈ rest, dgetD (setEntry r q v) p = dgetD r p := by
        intro p hp
        have hqp : ¬q = p := fun h => hq (by rw [h]; exact hp)
        rw [dgetD_setEntry, if_neg hqp]
      constructor
      · rintro ⟨hb₁, hrest'⟩
        by_cases habs : |v - dgetD r q| > 1 / 1000
        · rw [hb₁def, if_pos habs] at hb₁
          cases hb₁
        · rw [hb₁def, if_neg habs] at hb₁
          refine ⟨hb₁, ?_⟩
          intro p hp
          rcases List.mem_cons.mp hp with hp' | hp'
          · subst hp'
            rw [hfq]
            exact not_lt.mp habs
          · rw [← hfp p hp']
            exact hrest' p hp'
      · rintro ⟨hb, hall⟩
        have h1 : |v - dgetD r q| ≤ 1 / 1000 := by
          have h2 := hall q (List.mem_cons_self q rest)
          rw [hfq] at h2
          exact h2
        have hbeq : b₁ = true := by
          rw [hb₁def, if_neg (not_lt.mpr h1)]
          exact hb
        exact ⟨hbeq, fun p hp => by rw [hfp p hp]; exact hall p (List.mem_cons_of_mem q hp)⟩

theorem iteratePass_done_iff (c : Graph) (d : ℚ) (r : RankMap)
    (h : (keys c).Nodup) :
    ((iteratePass c d r).2 = true ↔
      ∀ p ∈ keys c, |dgetD (iteratePass c d r).1 p - dgetD r p| ≤ 1 / 1000) := by
  unfold iteratePass
  rw [foldl_passStep_done_iff c d (keys c) h r true]
  simp

/--
Claim C8: `iterate_pagerank`'s loop returns exactly when an iteration
completes in which every page's absolute change between its newly
computed rank and its prior value is ≤ 0.001, and it then returns those
latest ranks; if any page's absolute change exceeds 0.001, another full
iteration is performed on the updated table.
-/
theorem C8_convergence_test (corpus : Graph) (damping : ℚ) (fuel : Nat)
    (r : RankMap) (hnodup : (keys corpus).Nodup) :
    iterateLoop corpus damping (fuel + 1) r =
      if ∀ p ∈ keys corpus,
          |dgetD (iteratePass corpus damping r).1 p - dgetD r p| ≤ 1 / 1000
      then some (iteratePass corpus damping r).1
      else iterateLoop corpus damping fuel (iteratePass corpus damping r).1 := by
  have hdone := iteratePass_done_iff corpus damping r hnodup
  show (if (iteratePass corpus damping r).2 then some (iteratePass corpus damping r).1
      else iterateLoop corpus damping fuel (iteratePass corpus damping r).1) = _
  by_cases hc : ∀ p ∈ keys corpus,
      |dgetD (iteratePass corpus damping r).1 p - dgetD r p| ≤ 1 / 1000
  · rw [if_pos hc, if_pos (hdone.mpr hc)]
  · rw [if_neg hc, if_neg (fun h => hc (hdone.mp h))]

/-- Witness for C8 on a two-page cycle, whose very first iteration
already converges. -/
theorem C8_convergence_test_witness :
    (keys [("a", ["b"]), ("b", ["a"])]).Nodup ∧
    iterateLoop [("a", ["b"]), ("b", ["a"])] (17 / 20) (0 + 1)
        (initRanks [("a", ["b"]), ("b", ["a"])]) =
      (if ∀ p ∈ keys [("a", ["b"]), ("b", ["a"])],
          |dgetD (iteratePass [("a", ["b"]), ("b", ["a"])] (17 / 20)
              (initRanks [("a", ["b"]), ("b", ["a"])])).1 p -
            dgetD (initRanks [("a", ["b"]), ("b", ["a"])]) p| ≤ 1 / 1000
      then some (iteratePass [("a", ["b"]), ("b", ["a"])] (17 / 20)
          (initRanks [("a", ["b"]), ("b", ["a"])])).1
      else iterateLoop [("a", ["b"]), ("b", ["a"])] (17 / 20) 0
          (iteratePass [("a", ["b"]), ("b", ["a"])] (17 / 20)
            (initRanks [("a", ["b"]), ("b", ["a"])])).1) :=
  ⟨by simp [keys],
    C8_convergence_test [("a", ["b"]), ("b", ["a"])] (17 / 20) 0
      (initRanks [("a", ["b"]), ("b", ["a"])]) (by simp [keys])⟩

/-! ### Lemmas about the sampling loop -/

/-- A concrete oracle usable as `pick`: always draw the first page of
the distribution's population list (a choice `random.choices` can make
whenever the first page's weight is positive). -/
def headPick : Nat → List (Page × ℚ) → Page :=
  fun _ dist => (dist.map Prod.fst).headD ""

theorem headPick_mem : ∀ (i : Nat) (dist : List (Page × ℚ)),
    dist ≠ [] → headPick i dist ∈ dist.map Prod.fst := by
  intro i dist h
  cases dist with
  | nil => exact absurd rfl h
  | cons e rest => simp [headPick]

theorem dist_ne_nil_of_transition {corpus : Graph} {curr : Page} {d : ℚ}
    {dist : List (Page × ℚ)} (h : transition_model corpus curr d = some dist)
    (hcurr : curr ∈ keys corpus) : dist ≠ [] := by
  intro hnil
  have hk := keys_transition_model h
  rw [hnil] at hk
  rw [← hk] at hcurr
  simp at hcurr

/-- The sampling loop always succeeds from a corpus page (given that
the oracle, like `random.choices`, returns members of the population),
its counter keys are the initial keys plus the drawn pages, its total
count grows by exactly the number of steps, and counters stay
natural-valued. -/
theorem sampleLoop_spec (corpus : Graph) (d : ℚ)
    (pick : Nat → List (Page × ℚ) → Page)
    (hpick : ∀ i dist, dist ≠ [] → pick i dist ∈ dist.map Prod.fst) :
    ∀ (m : Nat) (curr : Page) (r : RankMap), curr ∈ keys corpus →
      ∃ out, sampleLoop corpus d pick m curr r = some out ∧
        (∀ p, p ∈ out.map Prod.fst ↔
          (p ∈ r.map Prod.fst ∨ p ∈ sampleDraws corpus d pick m curr)) ∧
        ((out.map Prod.snd).sum = (r.map Prod.snd).sum + (m : ℚ)) ∧
        ((∀ v ∈ r.map Prod.snd, ∃ c : ℕ, v = (c : ℚ)) →
          ∀ v ∈ out.map Prod.snd, ∃ c : ℕ, v = (c : ℚ)) := by
  intro m
  induction m with
  | zero =>
      intro curr r _
      exact ⟨r, rfl, by simp [sampleDraws], by simp, fun h => h⟩
  | succ m ih =>
      intro curr r hcurr
      obtain ⟨dist, htm⟩ : ∃ dist, transition_model corpus curr d = some dist := by
        cases htm : transition_model corpus curr d with
        | none =>
            exact absurd hcurr (transition_model_eq_none_iff corpus curr d |>.mp htm)
        | some dist => exact ⟨dist, rfl⟩
      have hdist : dist ≠ [] := dist_ne_nil_of_transition htm hcurr
      have hnxt : pick (m + 1) dist ∈ keys corpus := by
        rw [← keys_transition_model htm]
        exact hpick (m + 1) dist hdist
      have hstep : sampleLoop corpus d pick (m + 1) curr r =
          sampleLoop corpus d pick m (pick (m + 1) dist)
            (setEntry r (pick (m + 1) dist) (dgetD r (pick (m + 1) dist) + 1)) := by
        show (match transition_model corpus curr d with
          | none => none
          | some distribution =>
              sampleLoop corpus d pick m (pick (m + 1) distribution)
                (setEntry r (pick (m + 1) distribution)
                  (dgetD r (pick (m + 1) distribution) + 1))) = _
        rw [htm]
      have hdraws : sampleDraws corpus d pick (m + 1) curr =
          pick (m + 1) dist :: sampleDraws corpus d pick m (pick (m + 1) dist) := by
        show (match transition_model corpus curr d with
          | none => []
          | some distribution =>
              pick (m + 1) distribution ::
                sampleDraws corpus d pick m (pick (m + 1) distribution)) = _
        rw [htm]
      obtain ⟨out, hout, hkeys, hsum, hnat⟩ := ih (pick (m + 1) dist)
        (setEntry r (pick (m + 1) dist) (dgetD r (pick (m + 1) dist) + 1)) hnxt
      refine ⟨out, by rw [hstep]; exact hout, ?_, ?_, ?_⟩
      · intro p
        rw [hkeys p, hdraws]
        rw [mem_keys_setEntry]
        simp only [List.mem_cons]
        tauto
      · rw [hsum, sum_setEntry]
        push_cast
        ring
      · intro hr
        apply hnat
        intro v hv
        rcases mem_values_setEntry r _ _ v hv with h | h
        · obtain ⟨c, hc⟩ : ∃ c : ℕ, dgetD r (pick (m + 1) dist) = (c : ℚ) := by
            rcases dgetD_mem_or_zero r (pick (m + 1) dist) with hm | hm
            · exact hr _ hm
            · exact ⟨0, by rw [hm]; norm_num⟩
          refine ⟨c + 1, ?_⟩
          rw [h, hc]
          push_cast
          ring
        · exact hr v h

theorem sum_map_div_snd (l : List (Page × ℚ)) (c : ℚ) :
    ((l.map (fun e => (e.1, e.2 / c))).map Prod.snd).sum = ((l.map Prod.snd).sum) / c := by
  induction l with
  | nil => simp
  | cons e rest ih => simp only [List.map_cons, List.sum_cons, ih, add_div]

/--
Claim C7: For every non-empty graph, damping, and n ≥ 1 (with the random
draws modelled by an oracle that, like `random.choices`, returns members
of the population), the values of the mapping returned by
`sample_pagerank` sum to exactly 1: each value is an integer visit count
divided by n, and the visit counts total exactly n (the randomly chosen
initial page is not counted; only the n drawn pages are).
-/
theorem C7_ranks_sum_to_one (corpus : Graph) (damping : ℚ) (n : Nat)
    (start : Page) (pick : Nat → List (Page × ℚ) → Page)
    (hpick : ∀ i dist, dist ≠ [] → pick i dist ∈ dist.map Prod.fst)
    (hn : 1 ≤ n) (hstart : start ∈ keys corpus) :
    (sample_pagerank corpus damping n start pick).isSome = true ∧
    ((((sample_pagerank corpus damping n start pick).getD []).map Prod.snd).sum = 1) ∧
    (∀ v ∈ ((sample_pagerank corpus damping n start pick).getD []).map Prod.snd,
      ∃ c : ℕ, v = (c : ℚ) / (n : ℚ)) := by
  have hne : corpus ≠ [] := by
    intro h
    rw [h] at hstart
    simp [keys] at hstart
  obtain ⟨out, hout, hkeys, hsum, hnat⟩ :=
    sampleLoop_spec corpus damping pick hpick n start [] hstart
  have hres : sample_pagerank corpus damping n start pick =
      some (out.map (fun e => (e.1, e.2 / (n : ℚ)))) := by
    unfold sample_pagerank
    rw [if_neg (by simp [hne]), hout]
  have hnQ : ((n : ℚ)) ≠ 0 := by
    have : 0 < n := hn
    exact_mod_cast Nat.pos_iff_ne_zero.mp this
  rw [hres]
  refine ⟨rfl, ?_, ?_⟩
  · rw [Option.getD_some, sum_map_div_snd, hsum]
    simp [hnQ]
  · rw [Option.getD_some]
    intro v hv
    simp only [List.map_map] at hv
    obtain ⟨e, he, hev⟩ := List.mem_map.mp hv
    obtain ⟨c, hc⟩ := hnat (by intro v hv; simp at hv) e.2 (List.mem_map_of_mem Prod.snd he)
    exact ⟨c, by rw [← hev]; simp [Function.comp]; rw [hc]⟩

/-- Witness for C7: two samples on a two-page cycle, always drawing the
first page of the distribution. -/
theorem C7_ranks_sum_to_one_witness :
    ((∀ i dist, dist ≠ [] → headPick i dist ∈ dist.map Prod.fst) ∧
      1 ≤ 2 ∧ "a" ∈ keys [("a", ["b"]), ("b", ["a"])]) ∧
    ((sample_pagerank [("a", ["b"]), ("b", ["a"])] (17 / 20) 2 "a" headPick).isSome = true ∧
      ((((sample_pagerank [("a", ["b"]), ("b", ["a"])] (17 / 20) 2 "a" headPick).getD
          []).map Prod.snd).sum = 1) ∧
      (∀ v ∈ ((sample_pagerank [("a", ["b"]), ("b", ["a"])] (17 / 20) 2 "a" headPick).getD
          []).map Prod.snd, ∃ c : ℕ, v = (c : ℚ) / ((2 : Nat) : ℚ))) :=
  ⟨⟨headPick_mem, by norm_num, by simp [keys]⟩,
    C7_ranks_sum_to_one [("a", ["b"]), ("b", ["a"])] (17 / 20) 2 "a" headPick
      headPick_mem (by norm_num) (by simp [keys])⟩

/--
Claim C2 counterexample: On the three-page corpus a↔b, c→a with damping
0.85, two samples starting at "b" in which the random draws both pick
"a" (a positive-probability outcome of `random.choices`, realized by the
`headPick` oracle) return the mapping `[("a", 1)]`: the corpus page "c"
is not among its keys, contradicting the claim that every corpus page is
present as a key with unvisited pages mapped to 0.
-/
theorem C2_counterexample :
    sample_pagerank [("a", ["b"]), ("b", ["a"]), ("c", ["a"])] (17 / 20) 2 "b" headPick =
      some [("a", 1)] ∧
    "c" ∈ keys [("a", ["b"]), ("b", ["a"]), ("c", ["a"])] ∧
    "c" ∉ ([("a", (1 : ℚ))].map Prod.fst) := by
  refine ⟨?_, by simp [keys], by simp⟩
  norm_num +decide [sample_pagerank, sampleLoop, transition_model, getLinks, dgetD,
    setEntry, headPick, List.isEmpty]

/--
Claim C2 as amended: The mapping returned by `sample_pagerank` has as its
keys exactly the pages drawn during sampling (in particular, a corpus
page never visited is absent as a key rather than present with rank 0);
because the mapping is a `defaultdict(lambda: 0)`, looking up an absent
page still yields 0.
-/
theorem C2_keys_are_drawn_pages (corpus : Graph) (damping : ℚ) (n : Nat)
    (start : Page) (pick : Nat → List (Page × ℚ) → Page)
    (hpick : ∀ i dist, dist ≠ [] → pick i dist ∈ dist.map Prod.fst)
    (hstart : start ∈ keys corpus) (p : Page) :
    (sample_pagerank corpus damping n start pick).isSome = true ∧
    (p ∈ ((sample_pagerank corpus damping n start pick).getD []).map Prod.fst ↔
      p ∈ sampleDraws corpus damping pick n start) := by
  have hne : corpus ≠ [] := by
    intro h
    rw [h] at hstart
    simp [keys] at hstart
  obtain ⟨out, hout, hkeys, _, _⟩ :=
    sampleLoop_spec corpus damping pick hpick n start [] hstart
  have hres : sample_pagerank corpus damping n start pick =
      some (out.map (fun e => (e.1, e.2 / (n : ℚ)))) := by
    unfold sample_pagerank
    rw [if_neg (by simp [hne]), hout]
  rw [hres]
  refine ⟨rfl, ?_⟩
  rw [Option.getD_some]
  have hfst : (out.map (fun e => (e.1, e.2 / (n : ℚ)))).map Prod.fst = out.map Prod.fst := by
    simp [List.map_map, Function.comp]
  rw [hfst, hkeys p]
  simp

/-- Witness for C2-as-amended on the counterexample corpus: page "c" is
a key of the result exactly if it was drawn (here it was not). -/
theorem C2_keys_are_drawn_pages_witness :
    ((∀ i dist, dist ≠ [] → headPick i dist ∈ dist.map Prod.fst) ∧
      "b" ∈ keys [("a", ["b"]), ("b", ["a"]), ("c", ["a"])]) ∧
    ((sample_pagerank [("a", ["b"]), ("b", ["a"]), ("c", ["a"])] (17 / 20) 2 "b"
        headPick).isSome = true ∧
      ("c" ∈ ((sample_pagerank [("a", ["b"]), ("b", ["a"]), ("c", ["a"])] (17 / 20) 2 "b"
          headPick).getD []).map Prod.fst ↔
        "c" ∈ sampleDraws [("a", ["b"]), ("b", ["a"]), ("c", ["a"])] (17 / 20) headPick 2 "b")) :=
  ⟨⟨headPick_mem, by simp [keys]⟩,
    C2_keys_are_drawn_pages [("a", ["b"]), ("b", ["a"]), ("c", ["a"])] (17 / 20) 2 "b"
      headPick headPick_mem (by simp [keys]) "c"⟩

/--
Claim C10: For every non-empty graph, damping, and n ≥ 1, indexing the
mapping returned by `sample_pagerank` with a corpus page never drawn
during sampling yields 0 rather than failing: the result is a
`defaultdict` with default value 0 (embedded by the total lookup
`dgetD`, which returns 0 on a missing key).
-/
theorem C10_unvisited_lookup_zero (corpus : Graph) (damping : ℚ) (n : Nat)
    (start : Page) (pick : Nat → List (Page × ℚ) → Page)
    (hpick : ∀ i dist, dist ≠ [] → pick i dist ∈ dist.map Prod.fst)
    (hn : 1 ≤ n) (hstart : start ∈ keys corpus) (p : Page) (hp : p ∈ keys corpus)
    (hnd : p ∉ sampleDraws corpus damping pick n start) :
    (sample_pagerank corpus damping n start pick).isSome = true ∧
    dgetD ((sample_pagerank corpus damping n start pick).getD []) p = 0 := by
  have hne : corpus ≠ [] := by
    intro h
    rw [h] at hstart
    simp [keys] at hstart
  obtain ⟨out, hout, hkeys, _, _⟩ :=
    sampleLoop_spec corpus damping pick hpick n start [] hstart
  have hres : sample_pagerank corpus damping n start pick =
      some (out.map (fun e => (e.1, e.2 / (n : ℚ)))) := by
    unfold sample_pagerank
    rw [if_neg (by simp [hne]), hout]
  rw [hres]
  refine ⟨rfl, ?_⟩
  rw [Option.getD_some]
  apply dgetD_eq_zero_of_not_mem
  have hfst : (out.map (fun e => (e.1, e.2 / (n : ℚ)))).map Prod.fst = out.map Prod.fst := by
    simp [List.map_map, Function.comp]
  rw [hfst]
  intro hmem
  rcases (hkeys p).mp hmem with h | h
  · simp at h
  · exact hnd h

/-- Witness for C10: the never-drawn page "c" of the counterexample run
reads as 0. -/
theorem C10_unvisited_lookup_zero_witness :
    ((∀ i dist, dist ≠ [] → headPick i dist ∈ dist.map Prod.fst) ∧ 1 ≤ 2 ∧
      "b" ∈ keys [("a", ["b"]), ("b", ["a"]), ("c", ["a"])] ∧
      "c" ∈ keys [("a", ["b"]), ("b", ["a"]), ("c", ["a"])] ∧
      "c" ∉ sampleDraws [("a", ["b"]), ("b", ["a"]), ("c", ["a"])] (17 / 20) headPick 2 "b") ∧
    ((sample_pagerank [("a", ["b"]), ("b", ["a"]), ("c", ["a"])] (17 / 20) 2 "b"
        headPick).isSome = true ∧
      dgetD ((sample_pagerank [("a", ["b"]), ("b", ["a"]), ("c", ["a"])] (17 / 20) 2 "b"
        headPick).getD []) "c" = 0) :=
  ⟨⟨headPick_mem, by norm_num, by simp [keys], by simp [keys], by
      norm_num +decide [sampleDraws, transition_model, getLinks, headPick]⟩,
    C10_unvisited_lookup_zero [("a", ["b"]), ("b", ["a"]), ("c", ["a"])] (17 / 20) 2 "b"
      headPick headPick_mem (by norm_num) (by simp [keys]) "c" (by simp [keys])
      (by norm_num +decide [sampleDraws, transition_model, getLinks, headPick])⟩

/--
Claim C3 counterexample: The code performs no validation of `damping` or
`n`: `transition_model` with the out-of-range damping 2 happily returns
a distribution (here, on a dead-end page, the uniform one), and
`sample_pagerank` with n = 0 returns the empty mapping instead of
failing — both proceed to return a result on input the spec declares
invalid (damping outside [0,1], n ≤ 0).
-/
theorem C3_counterexample :
    transition_model [("a", []), ("b", ["a"])] "a" 2 =
      some [("a", 1 / 2), ("b", 1 / 2)] ∧
    sample_pagerank [("a", []), ("b", ["a"])] (17 / 20) 0 "b" headPick = some [] ∧
    ¬((2 : ℚ) ≤ 1) ∧ ¬(1 ≤ (0 : Nat)) := by
  refine ⟨?_, ?_, by norm_num, by norm_num⟩
  · norm_num +decide [transition_model, getLinks]
  · norm_num +decide [sample_pagerank, sampleLoop, List.isEmpty]

/--
Claim C3 as amended: `transition_model` fails (KeyError) exactly when
`page` is not a key of the graph; `sample_pagerank` fails (IndexError on
`random.choice` of an empty list) exactly when the graph is empty; and
`iterate_pagerank` fails (ZeroDivisionError computing
`random_factor / num_pgs`) exactly when the graph is empty.  A damping
outside [0,1] or an n ≤ 0 is not rejected: the functions proceed and
return a result.
-/
theorem C3_error_conditions (corpus : Graph) (page : Page) (damping : ℚ)
    (n fuel : Nat) (start : Page) (pick : Nat → List (Page × ℚ) → Page)
    (hpick : ∀ i dist, dist ≠ [] → pick i dist ∈ dist.map Prod.fst)
    (hstart : corpus ≠ [] → start ∈ keys corpus) :
    (transition_model corpus page damping = none ↔ page ∉ keys corpus) ∧
    (sample_pagerank corpus damping n start pick = none ↔ corpus = []) ∧
    (iterate_pagerank corpus damping fuel = none ↔ corpus = []) := by
  refine ⟨transition_model_eq_none_iff corpus page damping, ?_, ?_⟩
  · constructor
    · intro hnone
      by_contra hne
      obtain ⟨out, hout, _, _, _⟩ :=
        sampleLoop_spec corpus damping pick hpick n start [] (hstart hne)
      unfold sample_pagerank at hnone
      rw [if_neg (by simp [hne]), hout] at hnone
      cases hnone
    · intro h
      subst h
      rfl
  · unfold iterate_pagerank
    by_cases h : corpus = []
    · subst h
      simp
    · rw [if_neg (by simp [h])]
      simp [h]

/-- Witness for C3-as-amended on a two-page corpus with the `headPick`
oracle. -/
theorem C3_error_conditions_witness :
    ((∀ i dist, dist ≠ [] → headPick i dist ∈ dist.map Prod.fst) ∧
      ([("a", ["b"]), ("b", ["a"])] : Graph) ≠ [] ∧
      "a" ∈ keys [("a", ["b"]), ("b", ["a"])]) ∧
    ((transition_model [("a", ["b"]), ("b", ["a"])] "z" (17 / 20) = none ↔
        "z" ∉ keys [("a", ["b"]), ("b", ["a"])]) ∧
      (sample_pagerank [("a", ["b"]), ("b", ["a"])] (17 / 20) 3 "a" headPick = none ↔
        ([("a", ["b"]), ("b", ["a"])] : Graph) = []) ∧
      (iterate_pagerank [("a", ["b"]), ("b", ["a"])] (17 / 20) 5 = none ↔
        ([("a", ["b"]), ("b", ["a"])] : Graph) = [])) :=
  ⟨⟨headPick_mem, by simp, by simp [keys]⟩,
    C3_error_conditions [("a", ["b"]), ("b", ["a"])] "z" (17 / 20) 3 5 "a" headPick
      headPick_mem (fun _ => by simp [keys])⟩

end PageRank
